import Mathlib

/-!
Verification of `warp-real-ip` (`src/lib.rs`): trust-chain resolution of the
"real" client IP from forwarding headers.

Header values are modelled as `List Char` (Rust `&str` at char granularity).
The repository's own logic (the tokenizer `CommaSeparatedIterator`,
`maybe_quoted`, `maybe_bracketed`, `CommaSeparated::from_str`,
`get_forwarded_for`, `real_ip`) is translated directly from `src/lib.rs`.
External collaborators used by that code (the standard library's
`IpAddr::from_str`, the `rfc7239` crate's `parse`, and warp's header-filter
rejection/`or` semantics) are modelled from their documented interfaces and
the spec's description, and are marked as such in their doc comments.
-/

/-! ## Basic character utilities -/

/-- Decimal digit test (ASCII), as used by the textual IP grammars. -/
def isDigitChar (c : Char) : Bool := c.isDigit

/-- Hexadecimal digit test (ASCII), as used by the IPv6 textual grammar. -/
def isHexDigitChar (c : Char) : Bool :=
  c.isDigit || ('a' ≤ c && c ≤ 'f') || ('A' ≤ c && c ≤ 'F')

/-- Whitespace as trimmed by Rust's `str::trim` (restricted to the ASCII
whitespace characters, which are the only ones relevant here). -/
def isWsChar (c : Char) : Bool :=
  c = ' ' || c = '\t' || c = '\n' || c = '\r'

/-- Characters that can occur in a textual IP address (hex digits, dots,
colons). -/
def isIpChar (c : Char) : Bool := isHexDigitChar c || c = '.' || c = ':'

/-- Numeric value of a hex digit. -/
def hexDigitVal (c : Char) : Nat :=
  if c.isDigit then c.toNat - '0'.toNat
  else if 'a' ≤ c && c ≤ 'f' then c.toNat - 'a'.toNat + 10
  else if 'A' ≤ c && c ≤ 'F' then c.toNat - 'A'.toNat + 10
  else 0

/-- Decimal value of a digit string. -/
def decToNat (cs : List Char) : Nat :=
  cs.foldl (fun n c => n * 10 + (c.toNat - '0'.toNat)) 0

/-- Hexadecimal value of a hex-digit string. -/
def hexToNat (cs : List Char) : Nat :=
  cs.foldl (fun n c => n * 16 + hexDigitVal c) 0

/-- Drop trailing whitespace (the tail half of Rust's `str::trim`). -/
def dropTrailWs : List Char → List Char
  | [] => []
  | c :: cs =>
    match dropTrailWs cs with
    | [] => if isWsChar c then [] else [c]
    | r => c :: r

/-- Model of Rust's `str::trim`: strip whitespace from both ends. -/
def trimChars (cs : List Char) : List Char :=
  dropTrailWs (cs.dropWhile isWsChar)

/-- Split a character list on a separator character (model of Rust's
`str::split(sep)`): `"a.b" ↦ ["a","b"]`, `"" ↦ [""]`. -/
def splitOnC (sep : Char) : List Char → List (List Char)
  | [] => [[]]
  | c :: cs =>
    if c = sep then [] :: splitOnC sep cs
    else
      match splitOnC sep cs with
      | [] => [[c]]
      | p :: ps => (c :: p) :: ps

/-- Short-circuiting traversal, the model of Rust's
`collect::<Result<Vec<_>, _>>()` (specialised to `Option`): the first
failing element makes the whole traversal fail. -/
def traverseOpt (f : α → Option β) : List α → Option (List β)
  | [] => some []
  | a :: l =>
    match f a with
    | none => none
    | some b =>
      match traverseOpt f l with
      | none => none
      | some bs => some (b :: bs)

/-! ## IP addresses (model of `std::net::IpAddr`)

The data model of the spec (§3): a closed two-variant type, compared by
exact value, IPv4 and IPv6 never equal. -/

/-- An IP address: four IPv4 octets or eight IPv6 16-bit groups. -/
inductive IpAddr
  | v4 (a b c d : Nat)
  | v6 (a b c d e f g h : Nat)
deriving DecidableEq, Repr

/-- Modelled from the spec: the host standard library's IPv4 octet parse
(1–3 decimal digits, value ≤ 255, no leading zeros), used by `src/lib.rs`
through `IpAddr::from_str`. -/
def parseOctet (cs : List Char) : Option Nat :=
  if cs ≠ [] ∧ cs.length ≤ 3 ∧ cs.all isDigitChar ∧ (cs.head? = some '0' → cs.length = 1) then
    if decToNat cs ≤ 255 then some (decToNat cs) else none
  else none

/-- Modelled from the spec: the host standard library's dotted-decimal IPv4
parser (`Ipv4Addr::from_str`): exactly four octets separated by dots. -/
def ipv4FromStr (cs : List Char) : Option IpAddr :=
  match traverseOpt parseOctet (splitOnC '.' cs) with
  | some [a, b, c, d] => some (.v4 a b c d)
  | _ => none

/-- Modelled from the spec: an IPv6 group of 1–4 hex digits. -/
def parseHexGroup (cs : List Char) : Option Nat :=
  if cs ≠ [] ∧ cs.length ≤ 4 ∧ cs.all isHexDigitChar then some (hexToNat cs) else none

/-- Split at the first `::`, if any, returning the parts before and after. -/
def splitDoubleColon : List Char → Option (List Char × List Char)
  | [] => none
  | c :: cs =>
    if c = ':' ∧ cs.head? = some ':' then some ([], cs.tail)
    else (splitDoubleColon cs).map (fun p => (c :: p.1, p.2))

/-- Parse a colon-separated run of hex groups (no embedded IPv4),
an empty run for the empty string. -/
def parseGroupsNoV4 (cs : List Char) : Option (List Nat) :=
  if cs = [] then some []
  else traverseOpt parseHexGroup (splitOnC ':' cs)

/-- Parse the final group position: a hex group, or an embedded dotted
IPv4 address contributing two 16-bit groups. -/
def parseLastGroup (cs : List Char) : Option (List Nat) :=
  match parseHexGroup cs with
  | some g => some [g]
  | none =>
    match ipv4FromStr cs with
    | some (.v4 a b c d) => some [a * 256 + b, c * 256 + d]
    | _ => none

/-- Parse a colon-separated run of hex groups whose last element may be an
embedded IPv4 address; an empty run for the empty string. -/
def parseGroupsWithV4 (cs : List Char) : Option (List Nat) :=
  if cs = [] then some []
  else
    match traverseOpt parseHexGroup (splitOnC ':' cs).dropLast with
    | none => none
    | some gs =>
      match parseLastGroup ((splitOnC ':' cs).getLastD []) with
      | none => none
      | some lg => some (gs ++ lg)

/-- Assemble exactly eight 16-bit groups into an address. -/
def mk8 : List Nat → Option IpAddr
  | [a, b, c, d, e, f, g, h] => some (.v6 a b c d e f g h)
  | _ => none

/-- Modelled from the spec: the host standard library's IPv6 parser
(`Ipv6Addr::from_str`): at most one `::` standing for a run of zero groups,
otherwise exactly eight groups, with an optional embedded IPv4 tail. -/
def ipv6FromStr (cs : List Char) : Option IpAddr :=
  match splitDoubleColon cs with
  | some (l, r) =>
    match parseGroupsNoV4 l with
    | none => none
    | some lg =>
      match parseGroupsWithV4 r with
      | none => none
      | some rg =>
        if lg.length + rg.length ≤ 7 then
          mk8 (lg ++ List.replicate (8 - (lg.length + rg.length)) 0 ++ rg)
        else none
  | none =>
    match parseGroupsWithV4 cs with
    | none => none
    | some g => if g.length = 8 then mk8 g else none

/-- Modelled from the spec: `IpAddr::from_str` — try IPv4 first, then
IPv6 (`src/lib.rs` uses it for every hop token). -/
def ipFromStr (cs : List Char) : Option IpAddr :=
  match ipv4FromStr cs with
  | some a => some a
  | none => ipv6FromStr cs

/-! ## Quote and bracket unwrapping (`maybe_quoted`, `maybe_bracketed` in `src/lib.rs`) -/

/-- The escape-scanner state of `maybe_quoted` (enum `EscapeState`). -/
inductive EscapeState
  | normal
  | escaped
deriving DecidableEq, Repr

/-- The body loop of `maybe_quoted`: collect characters up to the first
unescaped `"`, collapsing a backslash escape to the escaped character. -/
def mqAux : EscapeState → List Char → List Char
  | _, [] => []
  | .normal, c :: cs =>
    if c = '"' then []
    else if c = '\\' then mqAux .escaped cs
    else c :: mqAux .normal cs
  | .escaped, c :: cs => c :: mqAux .normal cs

/-- Translation of `maybe_quoted` (`src/lib.rs:183`): a token starting with
`"` has the quotes stripped and backslash escapes collapsed; any other token
is returned unchanged. -/
def maybe_quoted (x : List Char) : List Char :=
  match x with
  | c :: rest => if c = '"' then mqAux .normal rest else x
  | [] => x

/-- Translation of `maybe_bracketed` (`src/lib.rs:210`): strip one
surrounding `[` … `]` pair when both are present. -/
def maybe_bracketed (x : List Char) : List Char :=
  if x.head? = some '[' ∧ x.getLast? = some ']' then (x.drop 1).dropLast else x

/-! ## The comma-separated tokenizer (`CommaSeparatedIterator` in `src/lib.rs`) -/

/-- The scanner states of `CommaSeparatedIterator` (`src/lib.rs:79`). -/
inductive CommaSeparatedIteratorState
  | default
  | quoted
  | quotedPair
  | token
  | postAmbleForQuoted
deriving DecidableEq, Repr

/-- Translation of `CommaSeparatedIterator::next` (`src/lib.rs:112`), with
the slice `target[s..i]` carried as the explicit accumulator `acc` (the
slice is contiguous, so the accumulated characters coincide with it).
At end of input an in-progress token is flushed. -/
def commaTokensAux : CommaSeparatedIteratorState → List Char → List Char → List (List Char)
  | st, acc, [] =>
    match st with
    | .default | .postAmbleForQuoted => []
    | _ => [acc]
  | .default, _, c :: cs =>
    if c = '"' then commaTokensAux .quoted ['"'] cs
    else if c = ' ' ∨ c = '\t' then commaTokensAux .default [] cs
    else if c = ',' then [] :: commaTokensAux .default [] cs
    else commaTokensAux .token [c] cs
  | .quoted, acc, c :: cs =>
    if c = '"' then (acc ++ ['"']) :: commaTokensAux .postAmbleForQuoted [] cs
    else if c = '\\' then commaTokensAux .quotedPair (acc ++ ['\\']) cs
    else commaTokensAux .quoted (acc ++ [c]) cs
  | .quotedPair, acc, c :: cs => commaTokensAux .quoted (acc ++ [c]) cs
  | .token, acc, c :: cs =>
    if c = ',' then acc :: commaTokensAux .default [] cs
    else commaTokensAux .token (acc ++ [c]) cs
  | .postAmbleForQuoted, _, c :: cs =>
    if c = ',' then commaTokensAux .default [] cs
    else commaTokensAux .postAmbleForQuoted [] cs

/-- The full token stream of `CommaSeparatedIterator::new(s)`. -/
def commaTokens (s : List Char) : List (List Char) :=
  commaTokensAux .default [] s

/-- The per-token normalisation done by `CommaSeparated::from_str`
(`src/lib.rs:232`): trim, unquote, unbracket. -/
def normalizeToken (t : List Char) : List Char :=
  maybe_bracketed (maybe_quoted (trimChars t))

/-- Translation of `CommaSeparated::<T>::from_str` (`src/lib.rs:230`),
generic in the element parser exactly as the source is generic in
`T: FromStr`: every token must parse, else the whole value fails. -/
def CommaSeparated.fromStr (parse : List Char → Option α) (s : List Char) : Option (List α) :=
  traverseOpt (fun t => parse (normalizeToken t)) (commaTokens s)

/-! ## The `Forwarded` header (model of the `rfc7239` crate used by `src/lib.rs`) -/

/-- A node name inside a `Forwarded` element (`rfc7239::NodeName`): an IP
address, the keyword `unknown`, or an obfuscated token. -/
inductive NodeName
  | ip (a : IpAddr)
  | unknown
  | name (s : List Char)
deriving DecidableEq, Repr

/-- A node identifier (`rfc7239::NodeIdentifier`): a node name with an
optional port. -/
structure NodeIdentifier where
  name : NodeName
  port : Option Nat
deriving DecidableEq, Repr

/-- One parsed `Forwarded` element (`rfc7239::Forwarded`): the four
standard parameters, each optional. -/
structure Forwarded where
  forwardedFor : Option NodeIdentifier
  forwardedBy : Option NodeIdentifier
  host : Option (List Char)
  proto : Option (List Char)
deriving DecidableEq, Repr

/-- A failed `Forwarded` element parse. -/
inductive ForwardedParseError
  | malformed
deriving DecidableEq, Repr

/-- Modelled from the spec: split on a separator while a double quote is
open, "respecting quoted substrings, so commas inside quotes do not split"
(§4.1). -/
def splitRespectQuotesAux (sep : Char) : Bool → List Char → List Char → List (List Char)
  | _, acc, [] => [acc]
  | inQ, acc, c :: cs =>
    if c = '"' then splitRespectQuotesAux sep (!inQ) (acc ++ [c]) cs
    else if c = sep ∧ inQ = false then acc :: splitRespectQuotesAux sep false [] cs
    else splitRespectQuotesAux sep inQ (acc ++ [c]) cs

/-- Quote-respecting split, starting outside any quotes. -/
def splitRespectQuotes (sep : Char) (cs : List Char) : List (List Char) :=
  splitRespectQuotesAux sep false [] cs

/-- Lower-case an ASCII letter. -/
def toLowerChar (c : Char) : Char :=
  if 'A' ≤ c ∧ c ≤ 'Z' then Char.ofNat (c.toNat + 32) else c

/-- Modelled from the spec: a `Forwarded` node identifier value (§3): an IP
address with optional port (IPv6 in brackets), the keyword `unknown`, or an
obfuscated `_`-prefixed token. -/
def parseNodeIdentifier (cs : List Char) : Option NodeIdentifier :=
  let v := maybe_quoted (trimChars cs)
  if v = "unknown".toList then some ⟨.unknown, none⟩
  else if v.head? = some '_' then some ⟨.name v, none⟩
  else if v.head? = some '[' then
    let inner := (v.drop 1).takeWhile (fun c => c ≠ ']')
    match (v.drop 1).dropWhile (fun c => c ≠ ']') with
    | ']' :: rest =>
      match ipv6FromStr inner, rest with
      | some ip, [] => some ⟨.ip ip, none⟩
      | some ip, ':' :: p =>
        if p ≠ [] ∧ p.all isDigitChar then some ⟨.ip ip, some (decToNat p)⟩ else none
      | _, _ => none
    | _ => none
  else
    match splitOnC ':' v with
    | [a] => (ipv4FromStr a).map (fun ip => ⟨.ip ip, none⟩)
    | [a, p] =>
      if p ≠ [] ∧ p.all isDigitChar then
        (ipv4FromStr a).map (fun ip => ⟨.ip ip, some (decToNat p)⟩)
      else none
    | _ => none

/-- Split a `key=value` pair at the first `=`. -/
def parsePair (cs : List Char) : Option (List Char × List Char) :=
  match cs.dropWhile (fun c => c ≠ '=') with
  | '=' :: v => some (cs.takeWhile (fun c => c ≠ '='), v)
  | _ => none

/-- Modelled from the spec: record one `key=value` pair into a `Forwarded`
element; an unknown key makes the element fail to parse. -/
def applyPair (f : Forwarded) (kv : List Char × List Char) : Option Forwarded :=
  let key := (trimChars kv.1).map toLowerChar
  if key = "for".toList then
    (parseNodeIdentifier kv.2).map (fun n => Forwarded.mk (some n) f.forwardedBy f.host f.proto)
  else if key = "by".toList then
    (parseNodeIdentifier kv.2).map (fun n => Forwarded.mk f.forwardedFor (some n) f.host f.proto)
  else if key = "host".toList then
    some (Forwarded.mk f.forwardedFor f.forwardedBy (some (trimChars kv.2)) f.proto)
  else if key = "proto".toList then
    some (Forwarded.mk f.forwardedFor f.forwardedBy f.host (some (trimChars kv.2)))
  else none

/-- Modelled from the spec: parse one comma-separated `Forwarded` element:
its semicolon-separated `key=value` pairs (§4.1). -/
def parseForwardedElement (e : List Char) : Except ForwardedParseError Forwarded :=
  match traverseOpt parsePair (splitRespectQuotes ';' e) with
  | none => .error .malformed
  | some kvs =>
    match kvs.foldlM applyPair (Forwarded.mk none none none none) with
    | none => .error .malformed
    | some f => .ok f

/-- Modelled from the spec: `rfc7239::parse` — split the header value on
commas (respecting quoted substrings) and parse each element, yielding a
parse result per element (§4.1). -/
def rfc7239Parse (v : List Char) : List (Except ForwardedParseError Forwarded) :=
  (splitRespectQuotes ',' v).map parseForwardedElement

/-! ## The warp filters (`get_forwarded_for`, `real_ip` in `src/lib.rs`) -/

/-- The three request headers the extractor may consult (§6). -/
structure Headers where
  xForwardedFor : Option (List Char)
  xRealIp : Option (List Char)
  forwarded : Option (List Char)
deriving DecidableEq, Repr

/-- Modelled from the spec: warp's header-filter rejection — a missing
header, or a header value whose `FromStr` parse fails, rejects the filter
(recoverably, so `.or` falls through to the next filter). -/
inductive Rejection
  | missingHeader
  | invalidHeader
deriving DecidableEq, Repr

/-- Model of `std::convert::Infallible`, the error type of the `real_ip`
filter in `src/lib.rs`: an uninhabited type. -/
inductive Infallible

/-- Modelled from the spec: warp's `Filter::or(...).unify()` — try the
first filter, fall back to the second on rejection. -/
def filterOr (f g : Headers → Except Rejection α) (h : Headers) : Except Rejection α :=
  match f h with
  | .ok a => .ok a
  | .error _ => g h

/-- The `warp::header("x-forwarded-for")` + `CommaSeparated<IpAddr>` branch
(`src/lib.rs:52`): rejects when the header is absent or its strict
comma-list parse fails. -/
def headerFilterXff (h : Headers) : Except Rejection (List IpAddr) :=
  match h.xForwardedFor with
  | none => .error .missingHeader
  | some v =>
    match CommaSeparated.fromStr ipFromStr v with
    | some l => .ok l
    | none => .error .invalidHeader

/-- The hop list extracted from an `x-real-ip` value (`src/lib.rs:55`):
one hop when the (unquoted, unbracketed) value parses, none otherwise. -/
def xRealIpHops (v : List Char) : List IpAddr :=
  match ipFromStr (maybe_bracketed (maybe_quoted v)) with
  | some x => [x]
  | none => []

/-- The `warp::header("x-real-ip")` branch (`src/lib.rs:54`): the value is
read as a plain `String`, so only absence rejects. -/
def headerFilterXRealIp (h : Headers) : Except Rejection (List IpAddr) :=
  match h.xRealIp with
  | none => .error .missingHeader
  | some v => .ok (xRealIpHops v)

/-- Translation of the `forwarded` branch's body (`src/lib.rs:60`): keep
exactly the parsed elements whose `for` parameter is an IP node
identifier. -/
def forwardedForSelector : Except ForwardedParseError Forwarded → Option IpAddr
  | .ok ⟨some ⟨.ip ip, _⟩, _, _, _⟩ => some ip
  | _ => none

/-- The hop list extracted from a `forwarded` header value
(`src/lib.rs:59`). -/
def forwardedForIps (v : List Char) : List IpAddr :=
  (rfc7239Parse v).filterMap forwardedForSelector

/-- The `warp::header("forwarded")` branch (`src/lib.rs:59`): the value is
read as a plain `String`, so only absence rejects. -/
def headerFilterForwarded (h : Headers) : Except Rejection (List IpAddr) :=
  match h.forwarded with
  | none => .error .missingHeader
  | some v => .ok (forwardedForIps v)

/-- Translation of `get_forwarded_for` (`src/lib.rs:51`): the three header
branches chained with `.or(...).unify()`, ending in `warp::any().map(Vec::new)`. -/
def get_forwarded_for : Headers → Except Rejection (List IpAddr) :=
  filterOr headerFilterXff
    (filterOr headerFilterXRealIp
      (filterOr headerFilterForwarded (fun _ => .ok [])))

/-- A socket address (`std::net::SocketAddr`): IP plus port, as supplied by
warp's `remote()`. -/
structure SocketAddr where
  ip : IpAddr
  port : Nat
deriving DecidableEq, Repr

/-- The trust test of `real_ip` (`src/lib.rs:38`):
`trusted_proxies.contains(&hop)`. -/
def trustedContains (trustedProxies : List IpAddr) (hop : IpAddr) : Bool :=
  trustedProxies.contains hop

/-- Translation of the resolution closure inside `real_ip`
(`src/lib.rs:35`–`45`): walk `forwarded_for ++ [peer]` in reverse, return
the first untrusted hop; if all hops are trusted, return the first declared
hop, or the peer when none were declared. -/
def realIpResolve (trustedProxies forwardedFor : List IpAddr) (addr : SocketAddr) : IpAddr :=
  match ((forwardedFor ++ [addr.ip]).reverse).find? (fun hop => !(trustedContains trustedProxies hop)) with
  | some hop => hop
  | none => (forwardedFor.head?).getD addr.ip

/-- Translation of `real_ip` (`src/lib.rs:30`): compose `remote()` (the
optional socket peer) with `get_forwarded_for` and map through the
resolution closure. -/
def real_ip (trustedProxies : List IpAddr) (h : Headers) (addr : Option SocketAddr) :
    Except Rejection (Option IpAddr) :=
  (get_forwarded_for h).map (fun forwardedFor => addr.map (realIpResolve trustedProxies forwardedFor))

/-! ## Spec-side definitions (for refinement comparisons) -/

/-- Modelled from the spec: an IP Network — "a contiguous address range
(address + prefix length)" (§3). -/
structure IpNetwork where
  addr : IpAddr
  prefixLen : Nat
deriving DecidableEq, Repr

/-- Modelled from the spec: the network "contains" predicate (§3, §4.2) —
same address family and equal upper `prefixLen` bits. -/
def networkContains (n : IpNetwork) (x : IpAddr) : Bool :=
  match n.addr, x with
  | .v4 a b c d, .v4 e f g h =>
    let p := min n.prefixLen 32
    (((a * 256 + b) * 256 + c) * 256 + d) / 2 ^ (32 - p)
      == (((e * 256 + f) * 256 + g) * 256 + h) / 2 ^ (32 - p)
  | .v6 a b c d e f g h, .v6 a2 b2 c2 d2 e2 f2 g2 h2 =>
    let p := min n.prefixLen 128
    ([a, b, c, d, e, f, g, h].foldl (fun n g => n * 65536 + g) 0) / 2 ^ (128 - p)
      == ([a2, b2, c2, d2, e2, f2, g2, h2].foldl (fun n g => n * 65536 + g) 0) / 2 ^ (128 - p)
  | _, _ => false

/-- Modelled from the spec: the Trust Set query (§4.2) — "true iff at least
one configured network's range includes the address". -/
def specTrustContains (nets : List IpNetwork) (x : IpAddr) : Bool :=
  nets.any (fun n => networkContains n x)

/-- Modelled from the spec: the `for`-extraction rule (§4.1) — "extract the
value of the `for` key when its value is an IP node-identifier (ignoring
elements with non-IP or absent `for`)", elements that do not parse being
skipped. -/
def specForSelector (r : Except ForwardedParseError Forwarded) : Option IpAddr :=
  match r with
  | .error _ => none
  | .ok f =>
    match f.forwardedFor with
    | none => none
    | some n =>
      match n.name with
      | .ip ip => some ip
      | _ => none

/-! ## Auxiliary scan function used by the tokenizer proofs -/

/-- Run the `maybe_quoted` body scanner over a chunk of characters without
reaching an unescaped closing quote: returns the collected content and the
final escape state, or `none` if an unescaped `"` terminates the scan
inside the chunk. -/
def mqScanFrom : EscapeState → List Char → Option (List Char × EscapeState)
  | es, [] => some ([], es)
  | .normal, c :: cs =>
    if c = '"' then none
    else if c = '\\' then mqScanFrom .escaped cs
    else (mqScanFrom .normal cs).map (fun p => (c :: p.1, p.2))
  | .escaped, c :: cs => (mqScanFrom .normal cs).map (fun p => (c :: p.1, p.2))

/-- The tokenizer state corresponding to an escape state inside a quoted
token. -/
def stOfEsc : EscapeState → CommaSeparatedIteratorState
  | .normal => .quoted
  | .escaped => .quotedPair

/-- Decidable equality for `Except` values, componentwise. -/
def exceptDecEq [DecidableEq ε] [DecidableEq α] : DecidableEq (Except ε α)
  | .ok a, .ok b =>
    if h : a = b then .isTrue (by rw [h]) else .isFalse (fun hh => by cases hh; exact h rfl)
  | .ok _, .error _ => .isFalse (fun hh => by cases hh)
  | .error _, .ok _ => .isFalse (fun hh => by cases hh)
  | .error a, .error b =>
    if h : a = b then .isTrue (by rw [h]) else .isFalse (fun hh => by cases hh; exact h rfl)

instance : DecidableEq (Except Rejection (List IpAddr)) := exceptDecEq

instance : DecidableEq (Except Rejection (Option IpAddr)) := exceptDecEq

instance : DecidableEq (Except ForwardedParseError Forwarded) := exceptDecEq

/-! ## Lemmas -/

/-- A failing element makes the whole short-circuiting traversal fail. -/
theorem traverseOpt_eq_none (f : α → Option β) {l : List α} {a : α}
    (ha : a ∈ l) (hf : f a = none) : traverseOpt f l = none := by
  induction l with
  | nil => cases ha
  | cons b l ih =>
    rcases List.mem_cons.mp ha with rfl | ha2
    · simp [traverseOpt, hf]
    · cases hfb : f b with
      | none => simp [traverseOpt, hfb]
      | some v => simp [traverseOpt, hfb, ih ha2]

/-- C1: for every trusted set `T`, peer `P` and header hop list `H`, the
resolver returns the first element of the reverse walk of `H ++ [P]` that
is not trusted; in particular an untrusted peer is always returned. -/
theorem c1_reverse_walk_first_untrusted (T H : List IpAddr) (P : SocketAddr) :
    (∀ hop : IpAddr,
        ((H ++ [P.ip]).reverse).find? (fun hop => !(trustedContains T hop)) = some hop →
        realIpResolve T H P = hop)
    ∧ (trustedContains T P.ip = false → realIpResolve T H P = P.ip) := by
  constructor
  · intro hop hfind
    simp only [realIpResolve, hfind]
  · intro hP
    have hrev : (H ++ [P.ip]).reverse = P.ip :: H.reverse := by
      simp [List.reverse_append]
    simp only [realIpResolve, hrev]
    rw [List.find?_cons_of_pos _ (by simp [hP])]

/-- Witness for C1 at concrete inputs: an untrusted hop is found mid-walk,
and an untrusted peer is returned directly. -/
theorem c1_witness :
    realIpResolve [IpAddr.v4 1 2 3 4] [IpAddr.v4 10 10 10 10, IpAddr.v4 11 11 11 11]
        ⟨IpAddr.v4 1 2 3 4, 80⟩ = IpAddr.v4 11 11 11 11
    ∧ realIpResolve [] [IpAddr.v4 10 10 10 10] ⟨IpAddr.v4 1 2 3 4, 80⟩ = IpAddr.v4 1 2 3 4 :=
  ⟨(c1_reverse_walk_first_untrusted _ _ _).1 _ (by decide),
   (c1_reverse_walk_first_untrusted _ _ _).2 (by decide)⟩

/-- C2: when every declared hop and the peer are all trusted, the resolver
returns the first declared hop, or the peer itself when none were
declared. -/
theorem c2_all_trusted_first_declared (T H : List IpAddr) (P : SocketAddr)
    (hH : ∀ a ∈ H, trustedContains T a = true) (hP : trustedContains T P.ip = true) :
    (∀ a H2, H = a :: H2 → realIpResolve T H P = a)
    ∧ (H = [] → realIpResolve T H P = P.ip) := by
  have hnone : ((H ++ [P.ip]).reverse).find? (fun hop => !(trustedContains T hop)) = none := by
    rw [List.find?_eq_none]
    intro x hx
    rw [List.mem_reverse] at hx
    rcases List.mem_append.mp hx with hx | hx
    · simp [hH x hx]
    · simp only [List.mem_singleton] at hx
      subst hx
      simp [hP]
  constructor
  · intro a H2 hEq
    subst hEq
    simp only [realIpResolve, hnone]
    rfl
  · intro hEq
    subst hEq
    simp only [realIpResolve, hnone]
    rfl

/-- Witness for C2 at concrete inputs: both the nonempty and the empty
header-list cases. -/
theorem c2_witness :
    realIpResolve [IpAddr.v4 1 2 3 4, IpAddr.v4 10 10 10 10] [IpAddr.v4 10 10 10 10]
        ⟨IpAddr.v4 1 2 3 4, 80⟩ = IpAddr.v4 10 10 10 10
    ∧ realIpResolve [IpAddr.v4 1 2 3 4] [] ⟨IpAddr.v4 1 2 3 4, 80⟩ = IpAddr.v4 1 2 3 4 :=
  ⟨(c2_all_trusted_first_declared _ _ _ (by decide) (by decide)).1 _ _ rfl,
   (c2_all_trusted_first_declared _ _ _ (by decide) (by decide)).2 rfl⟩

/-- C3 counterexample: the code's trust test is exact address equality over
a list of individual addresses, not range containment over networks: the
address `10.1.2.3` lies in the range of the network `10.0.0.0/8` (per the
spec-modelled containment), yet the code, which can only be configured with
the individual address `10.0.0.0`, treats `10.1.2.3` as untrusted and the
resolver therefore returns the peer `10.1.2.3` itself rather than walking
past it. -/
theorem c3_counterexample :
    networkContains ⟨IpAddr.v4 10 0 0 0, 8⟩ (IpAddr.v4 10 1 2 3) = true
    ∧ specTrustContains [⟨IpAddr.v4 10 0 0 0, 8⟩] (IpAddr.v4 10 1 2 3) = true
    ∧ trustedContains [IpAddr.v4 10 0 0 0] (IpAddr.v4 10 1 2 3) = false
    ∧ realIpResolve [IpAddr.v4 10 0 0 0] [IpAddr.v4 9 9 9 9]
        ⟨IpAddr.v4 10 1 2 3, 80⟩ = IpAddr.v4 10 1 2 3 := by
  decide

/-- C3 amended: the trust membership used by `real_ip` is exact address
equality against the configured list of individual addresses (each
configured entry acts as a host-only network; no CIDR-range configuration
exists in the code). -/
theorem c3_amended_exact_equality (T : List IpAddr) (a : IpAddr) :
    trustedContains T a = true ↔ a ∈ T :=
  List.elem_iff

/-- C6: the resolution filter never yields an error (its Rust error type
`Infallible` is uninhabited, and in the rejection-level model every run
produces an `ok`), and its result is absent exactly when the socket peer
address is absent. -/
theorem c6_no_error_absent_iff_no_peer :
    (∀ _e : Infallible, False)
    ∧ ∀ (T : List IpAddr) (h : Headers) (addr : Option SocketAddr),
        ∃ r, real_ip T h addr = .ok r ∧ (r = none ↔ addr = none) := by
  constructor
  · intro e
    cases e
  · intro T h addr
    obtain ⟨l, hl⟩ : ∃ l, get_forwarded_for h = .ok l := by
      unfold get_forwarded_for filterOr
      cases headerFilterXff h with
      | ok l => exact ⟨l, rfl⟩
      | error _e =>
        cases headerFilterXRealIp h with
        | ok l => exact ⟨l, rfl⟩
        | error _e =>
          cases headerFilterForwarded h with
          | ok l => exact ⟨l, rfl⟩
          | error _e => exact ⟨[], rfl⟩
    refine ⟨addr.map (realIpResolve T l), ?_, ?_⟩
    · simp [real_ip, hl, Except.map]
    · cases addr <;> simp

/-- C4 counterexample: with an `x-forwarded-for` header present but
malformed, the `x-real-ip` header does contribute hops — the strict
comma-list parse rejects the filter and warp's `.or` falls through —
so "whenever `x-forwarded-for` is present the other families contribute
nothing" is false. -/
theorem c4_counterexample :
    get_forwarded_for ⟨some ("garbage".toList), some ("10.0.0.1".toList), none⟩
        = .ok [IpAddr.v4 10 0 0 1]
    ∧ ¬ (get_forwarded_for ⟨some ("garbage".toList), some ("10.0.0.1".toList), none⟩
        = get_forwarded_for ⟨some ("garbage".toList), none, none⟩) := by
  decide

/-- C4 amended: exactly one header family contributes hops, in the
precedence order `x-forwarded-for` (only when present and its strict
comma-list parse succeeds), then `x-real-ip`, then `forwarded`; a present
but unparsable `x-forwarded-for` falls through to the later families. -/
theorem c4_amended_precedence (h : Headers) :
    get_forwarded_for h = .ok (
      match h.xForwardedFor.bind (CommaSeparated.fromStr ipFromStr) with
      | some l => l
      | none =>
        match h.xRealIp with
        | some v => xRealIpHops v
        | none =>
          match h.forwarded with
          | some v => forwardedForIps v
          | none => []) := by
  rcases h with ⟨xff, xr, fw⟩
  cases xff with
  | none =>
    cases xr with
    | none =>
      cases fw <;>
        simp [get_forwarded_for, filterOr, headerFilterXff, headerFilterXRealIp,
          headerFilterForwarded]
    | some v =>
      simp [get_forwarded_for, filterOr, headerFilterXff, headerFilterXRealIp]
  | some v =>
    cases hp : CommaSeparated.fromStr ipFromStr v with
    | some l =>
      simp [get_forwarded_for, filterOr, headerFilterXff, hp]
    | none =>
      cases xr with
      | none =>
        cases fw <;>
          simp [get_forwarded_for, filterOr, headerFilterXff, headerFilterXRealIp,
            headerFilterForwarded, hp]
      | some v2 =>
        simp [get_forwarded_for, filterOr, headerFilterXff, headerFilterXRealIp, hp]

/-- C5: if any token of an `x-forwarded-for` value fails to parse as an IP
address after normalisation, the whole strict comma-list parse fails, the
header contributes no hops (valid tokens in the same value are not kept),
and the extractor behaves exactly as if the header were absent, falling
through to `x-real-ip` or `forwarded`. -/
theorem c5_strict_xff_falls_through (s t : List Char)
    (ht : t ∈ commaTokens s) (hfail : ipFromStr (normalizeToken t) = none) :
    CommaSeparated.fromStr ipFromStr s = none
    ∧ ∀ xr fw, get_forwarded_for ⟨some s, xr, fw⟩ = get_forwarded_for ⟨none, xr, fw⟩ := by
  have hnone : CommaSeparated.fromStr ipFromStr s = none :=
    traverseOpt_eq_none _ ht hfail
  refine ⟨hnone, ?_⟩
  intro xr fw
  simp [get_forwarded_for, filterOr, headerFilterXff, headerFilterXRealIp,
    headerFilterForwarded, hnone]

/-- Witness for C5 at a concrete input: the value `10.10.10.10, garbage`
contains a failing token, so the whole value is rejected and a present
`x-real-ip` is consulted instead. -/
theorem c5_witness :
    CommaSeparated.fromStr ipFromStr ("10.10.10.10, garbage".toList) = none
    ∧ get_forwarded_for ⟨some ("10.10.10.10, garbage".toList), some ("10.0.0.1".toList), none⟩
        = get_forwarded_for ⟨none, some ("10.0.0.1".toList), none⟩ :=
  ⟨(c5_strict_xff_falls_through ("10.10.10.10, garbage".toList) ("garbage".toList)
      (by decide) (by decide)).1,
   (c5_strict_xff_falls_through ("10.10.10.10, garbage".toList) ("garbage".toList)
      (by decide) (by decide)).2 _ _⟩

/-- The source's `filter_map` match and the spec's `for`-extraction rule
select the same IP from a parsed element. -/
theorem forwardedForSelector_eq_spec (r : Except ForwardedParseError Forwarded) :
    forwardedForSelector r = specForSelector r := by
  rcases r with e | f
  · rfl
  · rcases f with ⟨ff, fb, ho, pr⟩
    rcases ff with _ | ⟨⟨nm, po⟩⟩
    · rfl
    · rcases nm <;> rfl

/-- C7: a consulted `forwarded` header yields exactly the IP addresses of
the `for` fields of its parseable elements, in declaration order, skipping
unparseable elements and elements whose `for` is absent or not an IP; in
particular a header with only `by=...` contributes zero hops and resolution
falls back to the peer. -/
theorem c7_forwarded_for_extraction :
    (∀ v : List Char, forwardedForIps v = (rfc7239Parse v).filterMap specForSelector)
    ∧ forwardedForIps ("by=11.11.11.11".toList) = []
    ∧ real_ip [IpAddr.v4 1 2 3 4] ⟨none, none, some ("by=11.11.11.11".toList)⟩
        (some ⟨IpAddr.v4 1 2 3 4, 80⟩) = .ok (some (IpAddr.v4 1 2 3 4))
    ∧ forwardedForIps ("for=10.10.10.10".toList) = [IpAddr.v4 10 10 10 10]
    ∧ forwardedForIps ("for=192.0.2.60;proto=http;by=203.0.113.43, for=198.51.100.17".toList)
        = [IpAddr.v4 192 0 2 60, IpAddr.v4 198 51 100 17]
    ∧ forwardedForIps ("for=unknown, for=10.10.10.10".toList) = [IpAddr.v4 10 10 10 10] := by
  refine ⟨?_, by decide, by decide, by decide, by decide, by decide⟩
  intro v
  unfold forwardedForIps
  rw [show forwardedForSelector = specForSelector from funext forwardedForSelector_eq_spec]

/-! ### Lemmas for the quote/bracket round-trip -/

/-- The quote-body scanner returns a clean chunk unchanged up to the
closing quote. -/
theorem mqAux_clean_closed {t : List Char} (h1 : '"' ∉ t) (h2 : '\\' ∉ t) :
    mqAux .normal (t ++ ['"']) = t := by
  induction t with
  | nil => simp [mqAux]
  | cons c cs ih =>
    have hc1 : ¬(c = '"') := fun hc => h1 (by simp [hc])
    have hc2 : ¬(c = '\\') := fun hc => h2 (by simp [hc])
    simp only [List.cons_append, mqAux, if_neg hc1, if_neg hc2]
    exact congrArg (fun x => c :: x) (ih (fun hm => h1 (by simp [hm])) (fun hm => h2 (by simp [hm])))

/-- A token not starting with a double quote is left unchanged by
`maybe_quoted`. -/
theorem maybe_quoted_of_head_ne {t : List Char} (h : t.head? ≠ some '"') :
    maybe_quoted t = t := by
  cases t with
  | nil => rfl
  | cons c cs =>
    have : ¬(c = '"') := fun hc => h (by simp [hc])
    simp [maybe_quoted, this]

/-- A token containing no opening bracket is left unchanged by
`maybe_bracketed`. -/
theorem maybe_bracketed_of_no_open {t : List Char} (h : '[' ∉ t) :
    maybe_bracketed t = t := by
  unfold maybe_bracketed
  rw [if_neg]
  rintro ⟨h1, _⟩
  cases t with
  | nil => simp at h1
  | cons c cs =>
    simp only [List.head?_cons, Option.some.injEq] at h1
    exact h (by simp [h1])

/-- C9: wrapping an address-charset token in double quotes or in square
brackets does not change the normalised token seen by `IpAddr::from_str`;
in particular `"10.10.10.10"` and `[::1]` parse to the same addresses as
their bare forms, both on the `x-real-ip` path and on the
`x-forwarded-for` comma-list path. -/
theorem c9_quote_bracket_roundtrip :
    (∀ t : List Char, (∀ c ∈ t, isIpChar c = true) →
        maybe_bracketed (maybe_quoted ('"' :: (t ++ ['"']))) = maybe_bracketed (maybe_quoted t)
        ∧ maybe_bracketed (maybe_quoted ('[' :: (t ++ [']']))) = maybe_bracketed (maybe_quoted t))
    ∧ ipFromStr (maybe_bracketed (maybe_quoted ("\"10.10.10.10\"".toList)))
        = ipFromStr (maybe_bracketed (maybe_quoted ("10.10.10.10".toList)))
    ∧ ipFromStr (maybe_bracketed (maybe_quoted ("[::1]".toList)))
        = ipFromStr (maybe_bracketed (maybe_quoted ("::1".toList)))
    ∧ xRealIpHops ("\"10.10.10.10\"".toList) = [IpAddr.v4 10 10 10 10]
    ∧ xRealIpHops ("[::1]".toList) = [IpAddr.v6 0 0 0 0 0 0 0 1]
    ∧ CommaSeparated.fromStr ipFromStr ("\"10.10.10.10\"".toList)
        = CommaSeparated.fromStr ipFromStr ("10.10.10.10".toList) := by
  refine ⟨?_, by decide, by decide, by decide, by decide, by decide⟩
  intro t h
  have hq : '"' ∉ t := fun hm => absurd (h _ hm) (by decide)
  have hb : '\\' ∉ t := fun hm => absurd (h _ hm) (by decide)
  have ho : '[' ∉ t := fun hm => absurd (h _ hm) (by decide)
  have hhead : t.head? ≠ some '"' := by
    cases t with
    | nil => simp
    | cons c cs =>
      simp only [List.head?_cons, ne_eq, Option.some.injEq]
      exact fun hc => hq (by simp [hc])
  have hmqt : maybe_quoted t = t := maybe_quoted_of_head_ne hhead
  constructor
  · have : maybe_quoted ('"' :: (t ++ ['"'])) = t := by
      simp [maybe_quoted, mqAux_clean_closed hq hb]
    rw [this, hmqt]
  · have hnq : maybe_quoted ('[' :: (t ++ [']'])) = '[' :: (t ++ [']']) :=
      maybe_quoted_of_head_ne (by simp)
    rw [hnq, hmqt, maybe_bracketed_of_no_open ho]
    unfold maybe_bracketed
    rw [if_pos]
    · show (t ++ [']']).dropLast = t
      exact List.dropLast_concat
    · constructor
      · simp
      · rw [show ('[' :: (t ++ [']'])) = (('[' :: t) ++ [']']) from by simp,
          List.getLast?_concat]

/-- Witness for C9 at concrete inputs: quote-wrapping `10.10.10.10` and
bracket-wrapping `::1` normalise to the bare tokens. -/
theorem c9_witness :
    maybe_bracketed (maybe_quoted ('"' :: ("10.10.10.10".toList ++ ['"'])))
        = maybe_bracketed (maybe_quoted ("10.10.10.10".toList))
    ∧ maybe_bracketed (maybe_quoted ('[' :: ("::1".toList ++ [']'])))
        = maybe_bracketed (maybe_quoted ("::1".toList)) :=
  ⟨(c9_quote_bracket_roundtrip.1 ("10.10.10.10".toList) (by decide)).1,
   (c9_quote_bracket_roundtrip.1 ("::1".toList) (by decide)).2⟩

/-! ### Lemmas for the tokenizer -/

/-- Inside a quoted token, a chunk free of quotes and backslashes is
consumed verbatim up to the closing quote, producing a single token. -/
theorem commaTokensAux_quoted_clean (cs : List Char) :
    ∀ acc, (∀ c ∈ cs, c ≠ '"' ∧ c ≠ '\\') →
      commaTokensAux .quoted acc (cs ++ ['"']) = [acc ++ cs ++ ['"']] := by
  induction cs with
  | nil =>
    intro acc _
    simp [commaTokensAux]
  | cons c cs ih =>
    intro acc h
    obtain ⟨hc1, hc2⟩ := h c (by simp)
    simp only [List.cons_append, commaTokensAux, if_neg hc1, if_neg hc2]
    have := ih (acc ++ [c]) (fun x hx => h x (by simp [hx]))
    rw [show (cs.append ['"']) = cs ++ ['"'] from rfl, this]
    simp

/-- C8: a comma inside a double-quoted token is not a list delimiter — the
whole quoted token, comma included, is produced as a single entry. -/
theorem c8_comma_inside_quotes (c1 c2 : List Char)
    (h : ∀ c ∈ c1 ++ c2, c ≠ '"' ∧ c ≠ '\\') :
    commaTokens ('"' :: ((c1 ++ ',' :: c2) ++ ['"'])) = ['"' :: ((c1 ++ ',' :: c2) ++ ['"'])] := by
  have hmid : ∀ c ∈ c1 ++ ',' :: c2, c ≠ '"' ∧ c ≠ '\\' := by
    intro c hc
    rcases List.mem_append.mp hc with hc | hc
    · exact h c (List.mem_append.mpr (Or.inl hc))
    · rcases List.mem_cons.mp hc with rfl | hc
      · exact ⟨by decide, by decide⟩
      · exact h c (List.mem_append.mpr (Or.inr hc))
  have hstep : commaTokens ('"' :: ((c1 ++ ',' :: c2) ++ ['"']))
      = commaTokensAux .quoted ['"'] ((c1 ++ ',' :: c2) ++ ['"']) := by
    simp [commaTokens, commaTokensAux]
  rw [hstep, commaTokensAux_quoted_clean _ _ hmid]
  simp

/-- Witness for C8 at the concrete input from the spec: the token
`"abc, def"` (with quotes) is one list entry, not two. -/
theorem c8_witness :
    commaTokens ("\"abc, def\"".toList) = ["\"abc, def\"".toList] :=
  c8_comma_inside_quotes ("abc".toList) (" def".toList) (by decide)

/-- Unfold one step of `dropTrailWs`. -/
theorem dropTrailWs_cons_eq (c : Char) (cs : List Char) :
    dropTrailWs (c :: cs)
      = match dropTrailWs cs with
        | [] => if isWsChar c then [] else [c]
        | r => c :: r := by
  rfl

/-- The quote-body scanner over an appended chunk decomposes into the two
scans, the first scan's final state feeding the second. -/
theorem mqScanFrom_append (l1 : List Char) :
    ∀ (es : EscapeState) (l2 : List Char),
      mqScanFrom es (l1 ++ l2)
        = match mqScanFrom es l1 with
          | none => none
          | some (o, e) => (mqScanFrom e l2).map (fun p => (o ++ p.1, p.2))
  := by
  induction l1 with
  | nil =>
    intro es l2
    simp only [List.nil_append, mqScanFrom]
    cases hs : mqScanFrom es l2 with
    | none => rfl
    | some p => simp
  | cons c cs ih =>
    intro es l2
    cases es with
    | normal =>
      by_cases hc1 : c = '"'
      · simp [mqScanFrom, hc1]
      · by_cases hc2 : c = '\\'
        · simp only [List.cons_append, mqScanFrom, if_neg hc1, if_pos hc2]
          exact ih .escaped l2
        · simp only [List.cons_append, mqScanFrom, if_neg hc1, if_neg hc2, List.append_eq]
          rw [ih .normal l2]
          cases hs : mqScanFrom .normal cs with
          | none => rfl
          | some p =>
            cases hs2 : mqScanFrom p.2 l2 with
            | none => simp [hs2]
            | some q => simp [hs2]
    | escaped =>
      simp only [List.cons_append, mqScanFrom, List.append_eq]
      rw [ih .normal l2]
      cases hs : mqScanFrom .normal cs with
      | none => rfl
      | some p =>
        cases hs2 : mqScanFrom p.2 l2 with
        | none => simp [hs2]
        | some q => simp [hs2]

/-- When the scan of a chunk does not terminate, `mqAux` on that chunk plus
a suffix produces the scanned content followed by `mqAux` restarted in the
scan's final state. -/
theorem mqAux_of_scan (raw : List Char) :
    ∀ (es : EscapeState) (o : List Char) (e : EscapeState),
      mqScanFrom es raw = some (o, e) → ∀ suf, mqAux es (raw ++ suf) = o ++ mqAux e suf := by
  induction raw with
  | nil =>
    intro es o e h suf
    simp only [mqScanFrom, Option.some.injEq, Prod.mk.injEq] at h
    obtain ⟨rfl, rfl⟩ := h
    simp
  | cons c cs ih =>
    intro es o e h suf
    cases es with
    | normal =>
      by_cases hc1 : c = '"'
      · simp [mqScanFrom, hc1] at h
      · by_cases hc2 : c = '\\'
        · simp only [mqScanFrom, if_neg hc1, if_pos hc2] at h
          simp only [List.cons_append, mqAux, if_neg hc1, if_pos hc2]
          exact ih .escaped o e h suf
        · simp only [mqScanFrom, if_neg hc1, if_neg hc2, Option.map_eq_some'] at h
          obtain ⟨p, hp, hpe⟩ := h
          simp only [List.cons_append, mqAux, if_neg hc1, if_neg hc2, List.append_eq]
          rw [ih .normal p.1 p.2 (by rw [hp]) suf]
          cases hpe
          simp
    | escaped =>
      simp only [mqScanFrom, Option.map_eq_some'] at h
      obtain ⟨p, hp, hpe⟩ := h
      simp only [List.cons_append, mqAux, List.append_eq]
      rw [ih .normal p.1 p.2 (by rw [hp]) suf]
      cases hpe
      simp

/-- Every character the quote-body scanner outputs comes from its input. -/
theorem mqScanFrom_subset (raw : List Char) :
    ∀ (es : EscapeState) (o : List Char) (e : EscapeState),
      mqScanFrom es raw = some (o, e) → ∀ x ∈ o, x ∈ raw := by
  induction raw with
  | nil =>
    intro es o e h x hx
    simp only [mqScanFrom, Option.some.injEq, Prod.mk.injEq] at h
    obtain ⟨rfl, rfl⟩ := h
    cases hx
  | cons c cs ih =>
    intro es o e h x hx
    cases es with
    | normal =>
      by_cases hc1 : c = '"'
      · simp [mqScanFrom, hc1] at h
      · by_cases hc2 : c = '\\'
        · simp only [mqScanFrom, if_neg hc1, if_pos hc2] at h
          exact List.mem_cons_of_mem _ (ih .escaped o e h x hx)
        · simp only [mqScanFrom, if_neg hc1, if_neg hc2, Option.map_eq_some'] at h
          obtain ⟨p, hp, hpe⟩ := h
          cases hpe
          rcases List.mem_cons.mp hx with rfl | hx2
          · exact List.mem_cons_self _ _
          · exact List.mem_cons_of_mem _ (ih .normal p.1 p.2 (by rw [hp]) x hx2)
    | escaped =>
      simp only [mqScanFrom, Option.map_eq_some'] at h
      obtain ⟨p, hp, hpe⟩ := h
      cases hpe
      rcases List.mem_cons.mp hx with rfl | hx2
      · exact List.mem_cons_self _ _
      · exact List.mem_cons_of_mem _ (ih .normal p.1 p.2 (by rw [hp]) x hx2)

/-- `dropTrailWs` splits its input into the kept front and an all-whitespace
suffix. -/
theorem dropTrailWs_decomp (cs : List Char) :
    ∃ sfx, cs = dropTrailWs cs ++ sfx ∧ ∀ x ∈ sfx, isWsChar x = true := by
  induction cs with
  | nil => exact ⟨[], rfl, by simp⟩
  | cons c cs ih =>
    obtain ⟨sfx, hdec, hws⟩ := ih
    cases hd : dropTrailWs cs with
    | nil =>
      by_cases hc : isWsChar c
      · have h1 : dropTrailWs (c :: cs) = [] := by
          rw [dropTrailWs_cons_eq, hd]
          simp [hc]
        refine ⟨c :: cs, by rw [h1]; rfl, ?_⟩
        intro x hx
        rcases List.mem_cons.mp hx with rfl | hx2
        · exact hc
        · rw [hdec, hd] at hx2
          exact hws x (by simpa using hx2)
      · have h1 : dropTrailWs (c :: cs) = [c] := by
          rw [dropTrailWs_cons_eq, hd]
          simp [hc]
        have hcs : cs = sfx := by
          rw [hdec, hd]
          rfl
        exact ⟨sfx, by rw [h1, hcs]; rfl, hws⟩
    | cons r rs =>
      have h1 : dropTrailWs (c :: cs) = c :: r :: rs := by
        rw [dropTrailWs_cons_eq, hd]
      refine ⟨sfx, ?_, hws⟩
      rw [h1]
      rw [hd] at hdec
      rw [List.cons_append]
      exact congrArg (fun x => c :: x) hdec

/-- Appending a non-whitespace character leaves nothing to trim. -/
theorem dropTrailWs_concat_not_ws {c : Char} (hc : isWsChar c = false) (l : List Char) :
    dropTrailWs (l ++ [c]) = l ++ [c] := by
  induction l with
  | nil => simp [dropTrailWs, hc]
  | cons a l ih =>
    rw [List.cons_append, dropTrailWs_cons_eq, ih]
    cases hl : l ++ [c] with
    | nil => simp at hl
    | cons r rs => simp

/-- `dropTrailWs` commutes with a non-whitespace head. -/
theorem dropTrailWs_cons_not_ws {c : Char} (hc : isWsChar c = false) (l : List Char) :
    dropTrailWs (c :: l) = c :: dropTrailWs l := by
  rw [dropTrailWs_cons_eq]
  cases hl : dropTrailWs l with
  | nil => simp [hc]
  | cons r rs => rfl

/-- `splitOnC` always produces at least one part. -/
theorem splitOnC_ne_nil (sep : Char) (cs : List Char) : splitOnC sep cs ≠ [] := by
  induction cs with
  | nil => simp [splitOnC]
  | cons c cs ih =>
    by_cases hc : c = sep
    · simp [splitOnC, hc]
    · simp only [splitOnC, if_neg hc]
      cases hs : splitOnC sep cs with
      | nil => simp
      | cons p ps => simp

/-- A non-separator character of the input appears in some part of the
split. -/
theorem mem_splitOnC (sep x : Char) (hne : x ≠ sep) :
    ∀ {cs : List Char}, x ∈ cs → ∃ p ∈ splitOnC sep cs, x ∈ p := by
  intro cs
  induction cs with
  | nil => intro h; cases h
  | cons c cs ih =>
    intro hx
    by_cases hc : c = sep
    · have hx2 : x ∈ cs := by
        rcases List.mem_cons.mp hx with rfl | hx2
        · exact absurd hc hne
        · exact hx2
      obtain ⟨p, hp, hxp⟩ := ih hx2
      exact ⟨p, by simp [splitOnC, hc, hp], hxp⟩
    · simp only [splitOnC, if_neg hc]
      cases hs : splitOnC sep cs with
      | nil => exact absurd hs (splitOnC_ne_nil sep cs)
      | cons p ps =>
        rcases List.mem_cons.mp hx with rfl | hx2
        · exact ⟨x :: p, by simp, by simp⟩
        · obtain ⟨q, hq, hxq⟩ := ih hx2
          rw [hs] at hq
          rcases List.mem_cons.mp hq with rfl | hq2
          · exact ⟨c :: q, by simp, by simp [hxq]⟩
          · exact ⟨q, by simp [hq2], hxq⟩

/-- A part containing a non-digit character is not an IPv4 octet. -/
theorem parseOctet_none_of_not_digit {p : List Char} {x : Char}
    (hx : x ∈ p) (hd : isDigitChar x = false) : parseOctet p = none := by
  unfold parseOctet
  rw [if_neg]
  rintro ⟨-, -, h3, -⟩
  have := List.all_eq_true.mp h3 x hx
  rw [hd] at this
  cases this

/-- A value containing a comma never parses as a dotted-decimal IPv4
address. -/
theorem ipv4FromStr_comma {cs : List Char} (h : ',' ∈ cs) : ipv4FromStr cs = none := by
  obtain ⟨p, hp, hxp⟩ := mem_splitOnC '.' ',' (by decide) h
  have : traverseOpt parseOctet (splitOnC '.' cs) = none :=
    traverseOpt_eq_none _ hp (parseOctet_none_of_not_digit hxp (by decide))
  simp [ipv4FromStr, this]

/-- A part containing a comma is not a hex group. -/
theorem parseHexGroup_comma {p : List Char} (hx : ',' ∈ p) : parseHexGroup p = none := by
  unfold parseHexGroup
  rw [if_neg]
  rintro ⟨-, -, h3⟩
  have := List.all_eq_true.mp h3 ',' hx
  cases this

/-- A final group position containing a comma parses neither as a hex group
nor as an embedded IPv4 address. -/
theorem parseLastGroup_comma {p : List Char} (hx : ',' ∈ p) : parseLastGroup p = none := by
  unfold parseLastGroup
  rw [parseHexGroup_comma hx, ipv4FromStr_comma hx]

/-- A chunk containing a comma fails the plain hex-group run parse. -/
theorem parseGroupsNoV4_comma {cs : List Char} (h : ',' ∈ cs) : parseGroupsNoV4 cs = none := by
  unfold parseGroupsNoV4
  rw [if_neg (by rintro rfl; cases h)]
  obtain ⟨p, hp, hxp⟩ := mem_splitOnC ':' ',' (by decide) h
  exact traverseOpt_eq_none _ hp (parseHexGroup_comma hxp)

/-- A nonempty list is its front parts plus its last element. -/
theorem dropLast_concat_getLastD {l : List α} (h : l ≠ []) (d : α) :
    l.dropLast ++ [l.getLastD d] = l := by
  induction l with
  | nil => exact absurd rfl h
  | cons a l ih =>
    cases l with
    | nil => rfl
    | cons b bs => simpa using ih (by simp)

/-- A chunk containing a comma fails the hex-group-or-embedded-IPv4 run
parse. -/
theorem parseGroupsWithV4_comma {cs : List Char} (h : ',' ∈ cs) :
    parseGroupsWithV4 cs = none := by
  unfold parseGroupsWithV4
  rw [if_neg (by rintro rfl; cases h)]
  obtain ⟨p, hp, hxp⟩ := mem_splitOnC ':' ',' (by decide) h
  rw [← dropLast_concat_getLastD (splitOnC_ne_nil ':' cs) []] at hp
  rcases List.mem_append.mp hp with hp2 | hp2
  · rw [traverseOpt_eq_none _ hp2 (parseHexGroup_comma hxp)]
  · rw [List.mem_singleton] at hp2
    subst hp2
    cases htr : traverseOpt parseHexGroup (splitOnC ':' cs).dropLast with
    | none => rfl
    | some gs => rw [parseLastGroup_comma hxp]

/-- The double-colon split decomposes its input. -/
theorem splitDoubleColon_spec :
    ∀ {cs l r : List Char}, splitDoubleColon cs = some (l, r) → cs = l ++ ':' :: ':' :: r := by
  intro cs
  induction cs with
  | nil => intro l r h; cases h
  | cons c cs ih =>
    intro l r h
    by_cases hc : c = ':' ∧ cs.head? = some ':'
    · rw [show splitDoubleColon (c :: cs) = some ([], cs.tail) from by
        simp [splitDoubleColon, hc]] at h
      obtain ⟨rfl, rfl⟩ : l = [] ∧ r = cs.tail := by
        constructor <;> { injection h with h2; cases h2; rfl }
      obtain ⟨hc1, hc2⟩ := hc
      cases cs with
      | nil => simp at hc2
      | cons d ds =>
        simp only [List.head?_cons, Option.some.injEq] at hc2
        subst hc1
        subst hc2
        rfl
    · rw [show splitDoubleColon (c :: cs) = (splitDoubleColon cs).map (fun p => (c :: p.1, p.2))
        from by simp [splitDoubleColon, hc]] at h
      rw [Option.map_eq_some'] at h
      obtain ⟨p, hp, hpe⟩ := h
      rw [Prod.mk.injEq] at hpe
      obtain ⟨rfl, rfl⟩ := hpe
      rw [List.cons_append]
      exact congrArg (fun x => c :: x) (ih hp)

/-- A value containing a comma never parses as an IPv6 address. -/
theorem ipv6FromStr_comma {cs : List Char} (h : ',' ∈ cs) : ipv6FromStr cs = none := by
  unfold ipv6FromStr
  cases hdc : splitDoubleColon cs with
  | none => rw [parseGroupsWithV4_comma h]
  | some p =>
    obtain ⟨l, r⟩ := p
    have hdec := splitDoubleColon_spec hdc
    rw [hdec] at h
    rcases List.mem_append.mp h with hl | hr
    · simp [parseGroupsNoV4_comma hl]
    · have hr2 : ',' ∈ r := by
        rcases List.mem_cons.mp hr with h1 | hr2
        · cases h1
        · rcases List.mem_cons.mp hr2 with h1 | hr3
          · cases h1
          · exact hr3
      cases hng : parseGroupsNoV4 l with
      | none => simp [hng]
      | some lg => simp [hng, parseGroupsWithV4_comma hr2]

/-- A value containing a comma never parses as an IP address. -/
theorem ipFromStr_comma {cs : List Char} (h : ',' ∈ cs) : ipFromStr cs = none := by
  unfold ipFromStr
  rw [ipv4FromStr_comma h, ipv6FromStr_comma h]

/-- A member other than the (known) last element survives `dropLast`. -/
theorem mem_dropLast_of_ne_getLast {x y : α} :
    ∀ {v : List α}, x ∈ v → v.getLast? = some y → x ≠ y → x ∈ v.dropLast := by
  intro v
  induction v with
  | nil => intro h; cases h
  | cons a l ih =>
    intro hx hlast hne
    cases l with
    | nil =>
      rcases List.mem_cons.mp hx with rfl | h2
      · simp only [List.getLast?_singleton, Option.some.injEq] at hlast
        exact absurd hlast hne
      · cases h2
    | cons b bs =>
      have hlast2 : (b :: bs).getLast? = some y := by
        rw [← hlast]
        rfl
      rw [show (a :: b :: bs).dropLast = a :: (b :: bs).dropLast from rfl]
      rcases List.mem_cons.mp hx with rfl | h2
      · exact List.mem_cons_self _ _
      · exact List.mem_cons_of_mem _ (ih h2 hlast2 hne)

/-- `maybe_bracketed` preserves a comma. -/
theorem mem_maybe_bracketed_comma {v : List Char} (h : ',' ∈ v) :
    ',' ∈ maybe_bracketed v := by
  unfold maybe_bracketed
  by_cases hcond : v.head? = some '[' ∧ v.getLast? = some ']'
  · rw [if_pos hcond]
    obtain ⟨h1, h2⟩ := hcond
    cases v with
    | nil => cases h
    | cons c cs =>
      simp only [List.head?_cons, Option.some.injEq] at h1
      subst h1
      have hcs : ',' ∈ cs := by
        rcases List.mem_cons.mp h with h3 | h3
        · cases h3
        · exact h3
      have hlast : cs.getLast? = some ']' := by
        cases cs with
        | nil => cases hcs
        | cons b bs =>
          rw [← h2]
          rfl
      rw [show ('[' :: cs).drop 1 = cs from rfl]
      exact mem_dropLast_of_ne_getLast hcs hlast (by decide)
  · rw [if_neg hcond]
    exact h

/-- The empty token does not parse as an IP address. -/
theorem bad_nil_token : ipFromStr (normalizeToken []) = none := by
  decide

/-- A quoted token whose scanned content already contains a comma can never
normalise to an IP address, whether the quote is still open at end of input
or closed. -/
theorem quoted_token_not_ip (raw o : List Char) (es : EscapeState)
    (hscan : mqScanFrom .normal raw = some (o, es)) (hc : ',' ∈ o) :
    ipFromStr (normalizeToken ('"' :: raw)) = none
    ∧ ipFromStr (normalizeToken (('"' :: raw) ++ ['"'])) = none := by
  constructor
  · obtain ⟨sfx, hdec, hws⟩ := dropTrailWs_decomp raw
    have happ := mqScanFrom_append (dropTrailWs raw) .normal sfx
    rw [← hdec, hscan] at happ
    cases hs1 : mqScanFrom .normal (dropTrailWs raw) with
    | none =>
      rw [hs1] at happ
      cases happ
    | some p =>
      rw [hs1] at happ
      have happ2 := happ.symm
      rw [Option.map_eq_some'] at happ2
      obtain ⟨q, hq, hqe⟩ := happ2
      rw [Prod.mk.injEq] at hqe
      obtain ⟨ho, -⟩ := hqe
      have hcomma1 : ',' ∈ p.1 := by
        rw [← ho] at hc
        rcases List.mem_append.mp hc with h1 | h2
        · exact h1
        · have hmem := mqScanFrom_subset sfx p.2 q.1 q.2 hq ',' h2
          exact absurd (hws ',' hmem) (by decide)
      have htrim : trimChars ('"' :: raw) = '"' :: dropTrailWs raw := by
        unfold trimChars
        rw [List.dropWhile_cons, if_neg (by decide)]
        exact dropTrailWs_cons_not_ws (by decide) raw
      have hmq : maybe_quoted (trimChars ('"' :: raw)) = p.1 := by
        rw [htrim]
        rw [show maybe_quoted ('"' :: dropTrailWs raw) = mqAux .normal (dropTrailWs raw) from by
          simp [maybe_quoted]]
        have hrun := mqAux_of_scan (dropTrailWs raw) .normal p.1 p.2 (by rw [hs1]) []
        rw [List.append_nil] at hrun
        rw [hrun, show mqAux p.2 [] = [] from by cases p.2 <;> rfl]
        exact List.append_nil p.1
      unfold normalizeToken
      rw [hmq]
      exact ipFromStr_comma (mem_maybe_bracketed_comma hcomma1)
  · have htrim : trimChars (('"' :: raw) ++ ['"']) = ('"' :: raw) ++ ['"'] := by
      unfold trimChars
      rw [List.cons_append, List.dropWhile_cons, if_neg (by decide), ← List.cons_append]
      exact dropTrailWs_concat_not_ws (by decide) ('"' :: raw)
    have hmq : maybe_quoted (('"' :: raw) ++ ['"']) = o ++ mqAux es ['"'] := by
      rw [List.cons_append]
      rw [show maybe_quoted ('"' :: (raw ++ ['"'])) = mqAux .normal (raw ++ ['"']) from by
        simp [maybe_quoted]]
      exact mqAux_of_scan raw .normal o es hscan ['"']
    unfold normalizeToken
    rw [htrim, hmq]
    exact ipFromStr_comma (mem_maybe_bracketed_comma (List.mem_append.mpr (Or.inl hc)))

/-- Inside a quoted token whose scanned content already contains a comma,
the tokenizer eventually emits a token that cannot parse as an IP address,
whatever the remaining input. -/
theorem quoted_run_bad (cs : List Char) :
    ∀ (raw o : List Char) (es : EscapeState),
      mqScanFrom .normal raw = some (o, es) → ',' ∈ o →
      ∃ t ∈ commaTokensAux (stOfEsc es) ('"' :: raw) cs,
        ipFromStr (normalizeToken t) = none := by
  induction cs with
  | nil =>
    intro raw o es hscan hc
    refine ⟨'"' :: raw, ?_, (quoted_token_not_ip raw o es hscan hc).1⟩
    cases es <;> simp [stOfEsc, commaTokensAux]
  | cons c cs ih =>
    intro raw o es hscan hc
    cases es with
    | normal =>
      by_cases hc1 : c = '"'
      · subst hc1
        refine ⟨('"' :: raw) ++ ['"'], ?_, (quoted_token_not_ip raw o .normal hscan hc).2⟩
        simp [stOfEsc, commaTokensAux]
      · by_cases hc2 : c = '\\'
        · subst hc2
          have hscan2 : mqScanFrom .normal (raw ++ ['\\']) = some (o, .escaped) := by
            rw [mqScanFrom_append raw .normal ['\\'], hscan]
            simp [mqScanFrom]
          obtain ⟨t, ht, hbad⟩ := ih (raw ++ ['\\']) o .escaped hscan2 hc
          refine ⟨t, ?_, hbad⟩
          rw [show commaTokensAux (stOfEsc .normal) ('"' :: raw) ('\\' :: cs)
              = commaTokensAux .quotedPair (('"' :: raw) ++ ['\\']) cs from by
            simp [stOfEsc, commaTokensAux]]
          exact ht
        · have hscan2 : mqScanFrom .normal (raw ++ [c]) = some (o ++ [c], .normal) := by
            rw [mqScanFrom_append raw .normal [c], hscan]
            simp [mqScanFrom, hc1, hc2]
          obtain ⟨t, ht, hbad⟩ :=
            ih (raw ++ [c]) (o ++ [c]) .normal hscan2 (List.mem_append.mpr (Or.inl hc))
          refine ⟨t, ?_, hbad⟩
          rw [show commaTokensAux (stOfEsc .normal) ('"' :: raw) (c :: cs)
              = commaTokensAux .quoted (('"' :: raw) ++ [c]) cs from by
            simp [stOfEsc, commaTokensAux, hc1, hc2]]
          exact ht
    | escaped =>
      have hscan2 : mqScanFrom .normal (raw ++ [c]) = some (o ++ [c], .normal) := by
        rw [mqScanFrom_append raw .normal [c], hscan]
        simp [mqScanFrom]
      obtain ⟨t, ht, hbad⟩ :=
        ih (raw ++ [c]) (o ++ [c]) .normal hscan2 (List.mem_append.mpr (Or.inl hc))
      refine ⟨t, ?_, hbad⟩
      rw [show commaTokensAux (stOfEsc .escaped) ('"' :: raw) (c :: cs)
          = commaTokensAux .quoted (('"' :: raw) ++ [c]) cs from by
        simp [stOfEsc, commaTokensAux]]
      exact ht

/-- From any reachable tokenizer configuration, an input containing two
consecutive commas makes the tokenizer emit some token that cannot parse
as an IP address. -/
theorem double_comma_bad_token (s2 : List Char) :
    ∀ (s1 : List Char) (st : CommaSeparatedIteratorState) (acc : List Char),
      (∀ es, st = stOfEsc es →
        ∃ raw o, acc = '"' :: raw ∧ mqScanFrom .normal raw = some (o, es)) →
      ∃ t ∈ commaTokensAux st acc (s1 ++ ',' :: ',' :: s2),
        ipFromStr (normalizeToken t) = none := by
  intro s1
  induction s1 with
  | nil =>
    intro st acc hinv
    cases st with
    | default =>
      refine ⟨[], ?_, bad_nil_token⟩
      rw [show commaTokensAux .default acc ([] ++ ',' :: ',' :: s2)
          = [] :: commaTokensAux .default [] (',' :: s2) from by simp [commaTokensAux]]
      exact List.mem_cons_self _ _
    | token =>
      refine ⟨[], ?_, bad_nil_token⟩
      rw [show commaTokensAux .token acc ([] ++ ',' :: ',' :: s2)
          = acc :: [] :: commaTokensAux .default [] s2 from by simp [commaTokensAux]]
      exact List.mem_cons_of_mem _ (List.mem_cons_self _ _)
    | postAmbleForQuoted =>
      refine ⟨[], ?_, bad_nil_token⟩
      rw [show commaTokensAux .postAmbleForQuoted acc ([] ++ ',' :: ',' :: s2)
          = [] :: commaTokensAux .default [] s2 from by simp [commaTokensAux]]
      exact List.mem_cons_self _ _
    | quoted =>
      obtain ⟨raw, o, rfl, hscan⟩ := hinv .normal rfl
      have hscan2 : mqScanFrom .normal (raw ++ [',']) = some (o ++ [','], .normal) := by
        rw [mqScanFrom_append raw .normal [','], hscan]
        simp [mqScanFrom]
      obtain ⟨t, ht, hbad⟩ := quoted_run_bad (',' :: s2) (raw ++ [',']) (o ++ [','])
        .normal hscan2 (List.mem_append.mpr (Or.inr (List.mem_singleton.mpr rfl)))
      refine ⟨t, ?_, hbad⟩
      rw [show commaTokensAux .quoted ('"' :: raw) ([] ++ ',' :: ',' :: s2)
          = commaTokensAux .quoted (('"' :: raw) ++ [',']) (',' :: s2) from by
        simp [commaTokensAux]]
      exact ht
    | quotedPair =>
      obtain ⟨raw, o, rfl, hscan⟩ := hinv .escaped rfl
      have hscan2 : mqScanFrom .normal (raw ++ [',']) = some (o ++ [','], .normal) := by
        rw [mqScanFrom_append raw .normal [','], hscan]
        simp [mqScanFrom]
      obtain ⟨t, ht, hbad⟩ := quoted_run_bad (',' :: s2) (raw ++ [',']) (o ++ [','])
        .normal hscan2 (List.mem_append.mpr (Or.inr (List.mem_singleton.mpr rfl)))
      refine ⟨t, ?_, hbad⟩
      rw [show commaTokensAux .quotedPair ('"' :: raw) ([] ++ ',' :: ',' :: s2)
          = commaTokensAux .quoted (('"' :: raw) ++ [',']) (',' :: s2) from by
        simp [commaTokensAux]]
      exact ht
  | cons c s1 ih =>
    intro st acc hinv
    cases st with
    | default =>
      by_cases hq : c = '"'
      · subst hq
        obtain ⟨t, ht, hbad⟩ := ih .quoted ['"'] (by
          intro es hes
          cases es with
          | normal => exact ⟨[], [], rfl, rfl⟩
          | escaped => simp [stOfEsc] at hes)
        refine ⟨t, ?_, hbad⟩
        rw [show commaTokensAux .default acc (('"' :: s1) ++ ',' :: ',' :: s2)
            = commaTokensAux .quoted ['"'] (s1 ++ ',' :: ',' :: s2) from by
          simp [commaTokensAux]]
        exact ht
      · by_cases hw : c = ' ' ∨ c = '\t'
        · obtain ⟨t, ht, hbad⟩ := ih .default [] (by
            intro es hes
            cases es <;> simp [stOfEsc] at hes)
          refine ⟨t, ?_, hbad⟩
          rw [show commaTokensAux .default acc ((c :: s1) ++ ',' :: ',' :: s2)
              = commaTokensAux .default [] (s1 ++ ',' :: ',' :: s2) from by
            simp [commaTokensAux, hq, hw]]
          exact ht
        · by_cases hcm : c = ','
          · subst hcm
            obtain ⟨t, ht, hbad⟩ := ih .default [] (by
              intro es hes
              cases es <;> simp [stOfEsc] at hes)
            refine ⟨t, ?_, hbad⟩
            rw [show commaTokensAux .default acc ((',' :: s1) ++ ',' :: ',' :: s2)
                = [] :: commaTokensAux .default [] (s1 ++ ',' :: ',' :: s2) from by
              simp [commaTokensAux]]
            exact List.mem_cons_of_mem _ ht
          · obtain ⟨t, ht, hbad⟩ := ih .token [c] (by
              intro es hes
              cases es <;> simp [stOfEsc] at hes)
            refine ⟨t, ?_, hbad⟩
            rw [show commaTokensAux .default acc ((c :: s1) ++ ',' :: ',' :: s2)
                = commaTokensAux .token [c] (s1 ++ ',' :: ',' :: s2) from by
              simp [commaTokensAux, hq, hw, hcm]]
            exact ht
    | token =>
      by_cases hcm : c = ','
      · subst hcm
        obtain ⟨t, ht, hbad⟩ := ih .default [] (by
          intro es hes
          cases es <;> simp [stOfEsc] at hes)
        refine ⟨t, ?_, hbad⟩
        rw [show commaTokensAux .token acc ((',' :: s1) ++ ',' :: ',' :: s2)
            = acc :: commaTokensAux .default [] (s1 ++ ',' :: ',' :: s2) from by
          simp [commaTokensAux]]
        exact List.mem_cons_of_mem _ ht
      · obtain ⟨t, ht, hbad⟩ := ih .token (acc ++ [c]) (by
          intro es hes
          cases es <;> simp [stOfEsc] at hes)
        refine ⟨t, ?_, hbad⟩
        rw [show commaTokensAux .token acc ((c :: s1) ++ ',' :: ',' :: s2)
            = commaTokensAux .token (acc ++ [c]) (s1 ++ ',' :: ',' :: s2) from by
          simp [commaTokensAux, hcm]]
        exact ht
    | postAmbleForQuoted =>
      by_cases hcm : c = ','
      · subst hcm
        obtain ⟨t, ht, hbad⟩ := ih .default [] (by
          intro es hes
          cases es <;> simp [stOfEsc] at hes)
        refine ⟨t, ?_, hbad⟩
        rw [show commaTokensAux .postAmbleForQuoted acc ((',' :: s1) ++ ',' :: ',' :: s2)
            = commaTokensAux .default [] (s1 ++ ',' :: ',' :: s2) from by
          simp [commaTokensAux]]
        exact ht
      · obtain ⟨t, ht, hbad⟩ := ih .postAmbleForQuoted [] (by
          intro es hes
          cases es <;> simp [stOfEsc] at hes)
        refine ⟨t, ?_, hbad⟩
        rw [show commaTokensAux .postAmbleForQuoted acc ((c :: s1) ++ ',' :: ',' :: s2)
            = commaTokensAux .postAmbleForQuoted [] (s1 ++ ',' :: ',' :: s2) from by
          simp [commaTokensAux, hcm]]
        exact ht
    | quoted =>
      obtain ⟨raw, o, rfl, hscan⟩ := hinv .normal rfl
      by_cases hc1 : c = '"'
      · subst hc1
        obtain ⟨t, ht, hbad⟩ := ih .postAmbleForQuoted [] (by
          intro es hes
          cases es <;> simp [stOfEsc] at hes)
        refine ⟨t, ?_, hbad⟩
        rw [show commaTokensAux .quoted ('"' :: raw) (('"' :: s1) ++ ',' :: ',' :: s2)
            = (('"' :: raw) ++ ['"'])
              :: commaTokensAux .postAmbleForQuoted [] (s1 ++ ',' :: ',' :: s2) from by
          simp [commaTokensAux]]
        exact List.mem_cons_of_mem _ ht
      · by_cases hc2 : c = '\\'
        · subst hc2
          have hscan2 : mqScanFrom .normal (raw ++ ['\\']) = some (o, .escaped) := by
            rw [mqScanFrom_append raw .normal ['\\'], hscan]
            simp [mqScanFrom]
          obtain ⟨t, ht, hbad⟩ := ih .quotedPair (('"' :: raw) ++ ['\\']) (by
            intro es hes
            cases es with
            | normal => simp [stOfEsc] at hes
            | escaped => exact ⟨raw ++ ['\\'], o, rfl, hscan2⟩)
          refine ⟨t, ?_, hbad⟩
          rw [show commaTokensAux .quoted ('"' :: raw) (('\\' :: s1) ++ ',' :: ',' :: s2)
              = commaTokensAux .quotedPair (('"' :: raw) ++ ['\\']) (s1 ++ ',' :: ',' :: s2)
            from by simp [commaTokensAux]]
          exact ht
        · have hscan2 : mqScanFrom .normal (raw ++ [c]) = some (o ++ [c], .normal) := by
            rw [mqScanFrom_append raw .normal [c], hscan]
            simp [mqScanFrom, hc1, hc2]
          obtain ⟨t, ht, hbad⟩ := ih .quoted (('"' :: raw) ++ [c]) (by
            intro es hes
            cases es with
            | normal => exact ⟨raw ++ [c], o ++ [c], rfl, hscan2⟩
            | escaped => simp [stOfEsc] at hes)
          refine ⟨t, ?_, hbad⟩
          rw [show commaTokensAux .quoted ('"' :: raw) ((c :: s1) ++ ',' :: ',' :: s2)
              = commaTokensAux .quoted (('"' :: raw) ++ [c]) (s1 ++ ',' :: ',' :: s2) from by
            simp [commaTokensAux, hc1, hc2]]
          exact ht
    | quotedPair =>
      obtain ⟨raw, o, rfl, hscan⟩ := hinv .escaped rfl
      have hscan2 : mqScanFrom .normal (raw ++ [c]) = some (o ++ [c], .normal) := by
        rw [mqScanFrom_append raw .normal [c], hscan]
        simp [mqScanFrom]
      obtain ⟨t, ht, hbad⟩ := ih .quoted (('"' :: raw) ++ [c]) (by
        intro es hes
        cases es with
        | normal => exact ⟨raw ++ [c], o ++ [c], rfl, hscan2⟩
        | escaped => simp [stOfEsc] at hes)
      refine ⟨t, ?_, hbad⟩
      rw [show commaTokensAux .quotedPair ('"' :: raw) ((c :: s1) ++ ',' :: ',' :: s2)
          = commaTokensAux .quoted (('"' :: raw) ++ [c]) (s1 ++ ',' :: ',' :: s2) from by
        simp [commaTokensAux]]
      exact ht

/-- C10: each comma met in the tokenizer's default state yields an
empty-string token — `a,,b` tokenizes to `a`, ``, `b` and a leading comma
yields a leading empty token — and consequently any `x-forwarded-for`
value containing two consecutive commas fails the strict list parse and
contributes no hops (the extractor behaves as if the header were
absent). -/
theorem c10_double_comma_empty_token :
    commaTokens ("a,,b".toList) = ["a".toList, [], "b".toList]
    ∧ (∀ s : List Char, commaTokens (',' :: s) = [] :: commaTokens s)
    ∧ (∀ s1 s2 : List Char,
        CommaSeparated.fromStr ipFromStr (s1 ++ ',' :: ',' :: s2) = none)
    ∧ (∀ (s1 s2 : List Char) (xr fw : Option (List Char)),
        get_forwarded_for ⟨some (s1 ++ ',' :: ',' :: s2), xr, fw⟩
          = get_forwarded_for ⟨none, xr, fw⟩) := by
  have hfail : ∀ s1 s2 : List Char,
      CommaSeparated.fromStr ipFromStr (s1 ++ ',' :: ',' :: s2) = none := by
    intro s1 s2
    obtain ⟨t, ht, hbad⟩ := double_comma_bad_token s2 s1 .default [] (by
      intro es hes
      cases es <;> simp [stOfEsc] at hes)
    exact traverseOpt_eq_none _ ht hbad
  refine ⟨by decide, ?_, hfail, ?_⟩
  · intro s
    rfl
  · intro s1 s2 xr fw
    simp [get_forwarded_for, filterOr, headerFilterXff, headerFilterXRealIp,
      headerFilterForwarded, hfail s1 s2]
